import Mathlib

set_option linter.unusedSectionVars false
set_option linter.unusedVariables false

/-!
Verification development for the ring-go LSAG ring-signature library
(pokt-network/ring-go).

The canonical implementation (package `ring`: ring.go, serde.go, types.go)
is generic over the external `types.Curve` / `types.Scalar` / `types.Point`
interfaces of go-dleq.  We embed it shallowly:

* scalars form a commutative ring `S`, points an additive commutative
  group `P` with an `S`-module structure (the prime-order group the two
  supported curves provide);
* the capability bundle `types.Curve` becomes the structure `Curve` below,
  whose proof fields state exactly the contract the spec requires of the
  external curve backends (canonical 32-byte scalar encoding, canonical
  compressed point encoding of width `compressedPointSize`, decode
  inverting encode);
* Go `nil` interface values become `Option`; a Go runtime panic is
  modelled as `GoResult.panic` (for constructors) or as `none` (for
  `Verify`/`Serialize`, which in Go return plain values);
* the crypto RNG becomes an explicit tape `Nat → S` of sampled scalars,
  indexed by the position being filled / the loop iteration that samples;
* bytes are modelled as `Nat` (the source only moves them around).

`hashToCurve` (file hash.go of the repository, not present in the source
snapshot; only its callers are) is a field of `Curve`.
Modelled from the spec: `hashToCurve` is a deterministic map from a point
to a point of the same curve (spec section 4.2); determinism is all the
code under ring.go/serde.go relies on, and is captured by `hashToCurve`
being a function.
-/

namespace RingGo

/-- Outcome of a Go function returning `(T, error)`: a value, a returned
error (with its message), or a runtime panic. -/
inductive GoResult (α : Type) where
  | ok : α → GoResult α
  | err : String → GoResult α
  | panic : GoResult α

/-- `true` iff the call returned a value. -/
def GoResult.isOk {α : Type} : GoResult α → Bool
  | .ok _ => true
  | _ => false

/-- `true` iff the call returned an error. -/
def GoResult.isErr {α : Type} : GoResult α → Bool
  | .err _ => true
  | _ => false

/-- `true` iff the call panicked. -/
def GoResult.isPanic {α : Type} : GoResult α → Bool
  | .panic => true
  | _ => false

/-- `binary.BigEndian.PutUint32`: the 4-byte big-endian encoding of `n`. -/
def beUint32Encode (n : Nat) : List Nat :=
  [n / 2 ^ 24 % 256, n / 2 ^ 16 % 256, n / 2 ^ 8 % 256, n % 256]

/-- `binary.BigEndian.Uint32` on a 4-byte list. -/
def beUint32Decode (b : List Nat) : Nat :=
  match b with
  | [b0, b1, b2, b3] => ((b0 * 256 + b1) * 256 + b2) * 256 + b3
  | _ => 0

/-- The go-dleq `types.Curve` capability bundle, together with the contract
the spec (section 4.1) imposes on the two concrete backends: scalar
encoding is exactly 32 bytes, point encoding exactly
`compressedPointSize` bytes, and decoding inverts encoding (canonical
compressed encodings).  Scalar and point arithmetic of the interface is
the module structure `[CommRing S] [AddCommGroup P] [Module S P]`;
`ScalarBaseMul x` is `x • basePoint`, `ScalarMul a p` is `a • p`,
`Point.Add` is `+`, `Scalar.Sub`/`Mul` are `-`/`*`, `IsZero` is `= 0`,
and `Equals`/`Eq` are equality in `P`/`S`. -/
structure Curve (S P : Type) [CommRing S] [AddCommGroup P] [Module S P] where
  basePoint : P
  altBasePoint : P
  compressedPointSize : Nat
  hashToScalar : List Nat → S
  encodeScalar : S → List Nat
  encodePoint : P → List Nat
  decodeToScalar : List Nat → Option S
  decodeToPoint : List Nat → Option P
  scalarFromInt : Nat → S
  hashToCurve : P → P
  encodeScalar_length : ∀ s, (encodeScalar s).length = 32
  encodePoint_length : ∀ p, (encodePoint p).length = compressedPointSize
  decode_encodeScalar : ∀ s, decodeToScalar (encodeScalar s) = some s
  decode_encodePoint : ∀ p, decodeToPoint (encodePoint p) = some p

variable {S P : Type} [CommRing S] [AddCommGroup P] [Module S P]
variable [DecidableEq S] [DecidableEq P]

/-- `Ring` (ring.go): ordered public keys, their curve, and the
precomputed per-key points `hp[i] = H_p(pubkeys[i])`.  Every constructor
in the source fills every slot of `pubkeys` with a freshly produced
non-nil point, so elements are modelled as plain `P`. -/
structure Ring (S P : Type) [CommRing S] [AddCommGroup P] [Module S P] where
  pubkeys : List P
  curve : Curve S P
  hp : List P

/-- `Ring.Size`. -/
def Ring.Size (r : Ring S P) : Nat :=
  r.pubkeys.length

/-- `RingSig` (ring.go): the ring pointer and the interface-valued fields
`c`, `s`, `image` are nil-able in Go, hence `Option`. -/
structure RingSig (S P : Type) [CommRing S] [AddCommGroup P] [Module S P] where
  ring : Option (Ring S P)
  c : Option S
  s : List (Option S)
  image : Option P

/-- `challenge` (ring.go): hash the buffer `m ‖ compress L ‖ compress R`.
The pooled buffer of length `32 + 2·compressedPointSize` is overwritten in
full on each call, so its reuse has no semantic content; the buffer's
contents are exactly this concatenation for a 32-byte `m`.
`curve.HashToScalar` never fails for the supported backends (the code
panics if it ever did), so it is total here. -/
def challenge (C : Curve S P) (m : List Nat) (l r : P) : S :=
  C.hashToScalar (m ++ C.encodePoint l ++ C.encodePoint r)

/-- One link of the challenge chain, shared verbatim by the signing loop
and the verification loop of ring.go:
`L_i = c_i·P_i + s_i·G`, `R_i = c_i·I + s_i·hp_i`, result
`H(m, L_i, R_i)`. -/
def chainStep (C : Curve S P) (m : List Nat) (pubkeys hp : List P) (image : P)
    (i : Nat) (ci si : S) : S :=
  let l := ci • pubkeys.getD i 0 + si • C.basePoint
  let r := ci • image + si • hp.getD i 0
  challenge C m l r

/-- The signing loop of `Sign` (ring.go lines 288-309) after `t` of its
`size - 1` iterations: the scratch challenge array `c` and the response
array `s`, both as total maps from index to value (unwritten slots hold
the scratch default).  Iteration `i` (for `i = 1 .. size-1`) samples
`s[(j+i) % n] := tape i` and writes
`c[(j+i+1) % n] := chainStep ((j+i) % n) (c[(j+i) % n]) (s[(j+i) % n])`. -/
def signLoop (C : Curve S P) (m : List Nat) (pubkeys hp : List P) (image : P)
    (j n : Nat) (tape : Nat → S) (cInit : Nat → S) : Nat → ((Nat → S) × (Nat → S))
  | 0 => (cInit, fun _ => 0)
  | t + 1 =>
    let cs := signLoop C m pubkeys hp image j n tape cInit t
    let idx := (j + (t + 1)) % n
    let si := tape (t + 1)
    let cNext := chainStep C m pubkeys hp image idx (cs.1 idx) si
    (Function.update cs.1 ((idx + 1) % n) cNext, Function.update cs.2 idx si)

/-- `Sign` (ring.go lines 242-338).  `ourIdx` is non-negative in every
claim about `Sign` (the constructors and `Ring.Sign` are where signedness
matters), so it is a `Nat` here.  `tape i` is the scalar the crypto RNG
returns for the `i`-th call: `tape 0` is the probe scalar `u`, `tape i`
the response sampled in loop iteration `i`. -/
def Sign (m : List Nat) (ring : Ring S P) (privKey : S) (ourIdx : Nat)
    (tape : Nat → S) : GoResult (RingSig S P) :=
  let size := ring.pubkeys.length
  if size < 2 then .err "size of ring less than two"
  else if size ≤ ourIdx then .err "secret index out of range of ring size"
  else if privKey = 0 then .err "private key is zero"
  else
    let C := ring.curve
    let pubkey := privKey • C.basePoint
    if ring.pubkeys.getD ourIdx 0 ≠ pubkey then .err "secret index in ring is not signer"
    else
      let h := C.hashToCurve pubkey
      let image := privKey • h
      let u := tape 0
      let l := u • C.basePoint
      let r := u • h
      let cInit : Nat → S :=
        Function.update (fun _ => 0) ((ourIdx + 1) % size) (challenge C m l r)
      let cs := signLoop C m ring.pubkeys ring.hp image ourIdx size tape cInit (size - 1)
      let cx := cs.1 ourIdx * privKey
      let sj := u - cx
      let sFinal := Function.update cs.2 ourIdx sj
      let lNew := cs.1 ourIdx • pubkey + sj • C.basePoint
      if lNew ≠ l then .err "failed to close ring: uG != sG + cP"
      else
        let rNew := cs.1 ourIdx • image + sj • h
        if rNew ≠ r then .err "failed to close ring: uH(P) != sH(P) + cI"
        else if challenge C m l r ≠ cs.1 ((ourIdx + 1) % size) then .err "challenge check failed"
        else .ok { ring := some ring
                 , c := some (cs.1 0)
                 , s := (List.range size).map (fun i => some (sFinal i))
                 , image := some image }

/-- `Ring.Sign` (ring.go lines 194-207): scan the ring for the public key
of `privKey`, stopping at the first hit, then delegate to `Sign`. -/
def Ring.Sign (r : Ring S P) (m : List Nat) (privKey : S) (tape : Nat → S) :
    GoResult (RingSig S P) :=
  let pubkey := privKey • r.curve.basePoint
  match r.pubkeys.findIdx? (fun pk => pk = pubkey) with
  | none => .err "failed to find given key in public key set"
  | some ourIdx => RingGo.Sign m r privKey ourIdx tape

/-- The verification loop of `Verify` (ring.go lines 365-383) after `i`
iterations, as an `Option`: the Go loop feeds `sig.s[i]` to the backend
scalar multiplication without a nil check, and every in-repo backend
panics on a nil scalar (crypto/secp256k1_optimized ethereum backend:
`scalar.(*ethereumScalar)` without comma-ok), which `none` models. -/
def verifyChain (C : Curve S P) (m : List Nat) (pubkeys hp : List P) (image : P)
    (s : List (Option S)) (start : S) : Nat → Option S
  | 0 => some start
  | i + 1 => do
    let prev ← verifyChain C m pubkeys hp image s start i
    let si ← s.getD i none
    pure (chainStep C m pubkeys hp image i prev si)

/-- `RingSig.Verify` (ring.go lines 342-386).  The nil/size guards return
`false`; then `ensureHP` recomputes `hp` when its length disagrees with
`pubkeys` (after which recomputation cannot fail: every pubkey is a
decodable non-nil point, and `DecodeToPoint ∘ Encode` succeeds by the
curve contract); then the chain is re-walked from `sig.c` and compared.
`some b` is a returned boolean; `none` is a panic in the unguarded
backend call on a nil `s[i]`. -/
def Verify (sig : RingSig S P) (m : List Nat) : Option Bool :=
  match sig.ring with
  | none => some false
  | some rg =>
    let size := rg.pubkeys.length
    if size < 2 ∨ sig.s.length ≠ size ∨ sig.c.isNone ∨ sig.image.isNone then some false
    else
      let hp := if rg.hp.length = size then rg.hp else rg.pubkeys.map rg.curve.hashToCurve
      do
        let c0 ← sig.c
        let image ← sig.image
        let last ← verifyChain rg.curve m rg.pubkeys hp image sig.s c0 size
        pure (decide (c0 = last))

/-- `Ring.Equals` (ring.go lines 27-40): sizes equal, public keys equal
pairwise at the same indices, and both curves agree on base point and
alternate base point. -/
def Equals (r other : Ring S P) : Bool :=
  if r.pubkeys.length ≠ other.pubkeys.length then false
  else if (r.pubkeys.zip other.pubkeys).all (fun pq => pq.1 = pq.2) then
    decide (r.curve.basePoint = other.curve.basePoint) &&
      decide (r.curve.altBasePoint = other.curve.altBasePoint)
  else false

/-- `NewKeyRing` (ring.go lines 160-190).  `size` and `idx` are Go `int`s.
The only bound checked is `idx >= size`; a negative `size` makes
`make([]types.Point, size)` panic, and a negative `idx` then makes the
write `ring[idx] = pubkey` panic.  The RNG tape is indexed by the ring
slot being filled (the loop samples once per non-signer slot, in
increasing slot order). -/
def NewKeyRing (C : Curve S P) (size : Int) (privKey : S) (idx : Int)
    (tape : Nat → S) : GoResult (Ring S P) :=
  if size ≤ idx then .err "index out of bounds"
  else if privKey = 0 then .err "private key is zero"
  else if size < 0 then .panic
  else if idx < 0 then .panic
  else
    let n := size.toNat
    let j := idx.toNat
    let pubkey := privKey • C.basePoint
    let pubkeys := (List.range n).map
      (fun i => if i = j then pubkey else tape i • C.basePoint)
    .ok { pubkeys := pubkeys, curve := C, hp := pubkeys.map C.hashToCurve }

/-- A Go `types.Point` interface value as the caller of
`NewKeyRingFromPublicKeys` hands it over: the object's identity (its
address; Go map keys over interface values holding pointers compare by
it) together with the curve point it holds. -/
structure PtObj (P : Type) where
  ref : Nat
  val : P

/-- A reference distinct from every reference in the list, modelling that
`curve.ScalarBaseMul` allocates a fresh point object. -/
def freshRef (pubkeys : List (PtObj P)) : Nat :=
  (pubkeys.map PtObj.ref).foldr max 0 + 1

/-- `NewKeyRingFromPublicKeys` (ring.go lines 82-128): insert the signer's
public key at `idx`, shifting the supplied keys around it, then reject the
ring when `pubkeysMap` (a Go `map[types.Point]struct{}`, so keyed by
interface identity, not by point equality) has fewer entries than the
ring. -/
def NewKeyRingFromPublicKeys (C : Curve S P) (pubkeys : List (PtObj P))
    (privKey : S) (idx : Int) : GoResult (Ring S P) :=
  let size := pubkeys.length + 1
  let pubkeyObj : PtObj P := { ref := freshRef pubkeys, val := privKey • C.basePoint }
  if (pubkeys.length : Int) < idx then .err "index out of bounds: idx > len(pubkeys)"
  else if idx < 0 then .err "index out of bounds: idx < 0"
  else if privKey = 0 then .err "private key is zero"
  else
    let j := idx.toNat
    let newRing : List (PtObj P) := (List.range size).map
      (fun i =>
        if i = j then pubkeyObj
        else if i < j then pubkeys.getD i pubkeyObj
        else pubkeys.getD (i - 1) pubkeyObj)
    if (newRing.map PtObj.ref).dedup.length ≠ newRing.length then
      .err "duplicate public keys in ring"
    else
      let pk := newRing.map PtObj.val
      .ok { pubkeys := pk, curve := C, hp := pk.map C.hashToCurve }

/-- `RingSig.Serialize` (serde.go lines 14-30): 4-byte big-endian ring
size, then `c`, then the compressed image, then `s[i] ‖ pubkeys[i]` for
each slot.  The Go method dereferences `r.ring`, `r.c`, `r.image` and
each `r.s[i]` without nil checks; `none` models the panic on a nil
field or a missing `s[i]`. -/
def serializeBody (C : Curve S P) (s : List (Option S)) (pubkeys : List P) :
    Nat → Option (List Nat)
  | 0 => some []
  | k + 1 => do
    let rest ← serializeBody C s pubkeys k
    let sk ← s.getD k none
    pure (rest ++ C.encodeScalar sk ++ C.encodePoint (pubkeys.getD k 0))

/-- See `serializeBody`. -/
def Serialize (sig : RingSig S P) : Option (List Nat) :=
  match sig.ring, sig.c, sig.image with
  | some rg, some c, some image =>
    let size := rg.pubkeys.length
    (serializeBody rg.curve sig.s rg.pubkeys size).map
      (fun body =>
        beUint32Encode size ++ rg.curve.encodeScalar c ++
          rg.curve.encodePoint image ++ body)
  | _, _, _ => none

/-- The per-slot read loop of `RingSig.Deserialize` (serde.go lines
83-103): read 32 bytes and decode `s[i]`, read `compressedPointSize`
bytes and decode `pubkeys[i]`, `size` times, consuming from the front. -/
def deserializePairs (C : Curve S P) : Nat → List Nat → GoResult (List S × List P)
  | 0, _ => .ok ([], [])
  | k + 1, rest =>
    if rest.length < 32 then .err "read s"
    else
      match C.decodeToScalar (rest.take 32) with
      | none => .err "decode s"
      | some si =>
        let rest := rest.drop 32
        if rest.length < C.compressedPointSize then .err "read pubkey"
        else
          match C.decodeToPoint (rest.take C.compressedPointSize) with
          | none => .err "decode pubkey"
          | some pi =>
            match deserializePairs C k (rest.drop C.compressedPointSize) with
            | .ok (s, ps) => .ok (si :: s, pi :: ps)
            | .err e => .err e
            | .panic => .panic

/-- `RingSig.Deserialize` (serde.go lines 33-123).  Fails on a missing
4-byte header, on a declared size below 2, and when the input is SHORTER
than `4 + 32 + P + size·(32 + P)` bytes; a longer input passes the check
and its trailing bytes are never read.  After decoding, `hp` is
recomputed from the decoded public keys. -/
def Deserialize (C : Curve S P) (inp : List Nat) : GoResult (RingSig S P) :=
  if inp.length < 4 then .err "input too short: missing size header"
  else
    let size := beUint32Decode (inp.take 4)
    if size < 2 then .err "invalid ring size"
    else
      let need := 4 + 32 + C.compressedPointSize + size * (32 + C.compressedPointSize)
      if inp.length < need then .err "input too short"
      else
        let rest := inp.drop 4
        if rest.length < 32 then .err "read c"
        else
          match C.decodeToScalar (rest.take 32) with
          | none => .err "decode c"
          | some c =>
            let rest := rest.drop 32
            if rest.length < C.compressedPointSize then .err "read image"
            else
              match C.decodeToPoint (rest.take C.compressedPointSize) with
              | none => .err "decode image"
              | some image =>
                match deserializePairs C size (rest.drop C.compressedPointSize) with
                | .err e => .err e
                | .panic => .panic
                | .ok (s, pubkeys) =>
                  .ok { ring := some { pubkeys := pubkeys
                                     , curve := C
                                     , hp := pubkeys.map C.hashToCurve }
                      , c := some c
                      , s := s.map some
                      , image := some image }

/-- The ring carried by an `ok` result (and `[]` otherwise); evaluation
helper for concrete runs of the constructors. -/
def GoResult.ringPubkeys : GoResult (Ring S P) → List P
  | .ok r => r.pubkeys
  | _ => []

/-- A small concrete curve satisfying the backend contract, for running
the embedded code on explicit inputs: scalars and points are `ZMod 5`
(the group written additively via its module structure over itself),
encodings are one meaningful byte padded to the contract widths. -/
def toyCurve : Curve (ZMod 5) (ZMod 5) where
  basePoint := 1
  altBasePoint := 2
  compressedPointSize := 1
  hashToScalar := fun l => ((l.foldr (· + ·) 0 : Nat) : ZMod 5)
  encodeScalar := fun s => s.val :: List.replicate 31 0
  encodePoint := fun p => [p.val]
  decodeToScalar := fun l =>
    match l with
    | b :: rest => if rest.length = 31 then some ((b : ZMod 5)) else none
    | [] => none
  decodeToPoint := fun l =>
    match l with
    | [b] => some ((b : ZMod 5))
    | _ => none
  scalarFromInt := fun n => (n : ZMod 5)
  hashToCurve := fun p => p + p + 1
  encodeScalar_length := by intro s; simp
  encodePoint_length := by intro p; rfl
  decode_encodeScalar := by decide
  decode_encodePoint := by decide

/-- The challenge value the signing loop writes in its `k`-th write:
`cSeq 0` is the probe challenge (written to slot `(j+1) % n`), and
`cSeq (k+1)` the challenge written to slot `(j+k+2) % n` by loop
iteration `k+1`.  Closed form of `signLoop`, used to relate the signing
and verification walks. -/
def cSeq (C : Curve S P) (m : List Nat) (pubkeys hp : List P) (image : P)
    (j n : Nat) (u : S) (h : P) (tape : Nat → S) : Nat → S
  | 0 => challenge C m (u • C.basePoint) (u • h)
  | k + 1 => chainStep C m pubkeys hp image ((j + k + 1) % n)
      (cSeq C m pubkeys hp image j n u h tape k) (tape (k + 1))

/-- Closed form of the serialized per-slot body: the concatenation of
`encode s[i] ‖ encode pubkeys[i]` in slot order. -/
def segsOf (C : Curve S P) : List S → List P → List Nat
  | a :: as, b :: bs => C.encodeScalar a ++ C.encodePoint b ++ segsOf C as bs
  | _, _ => []

/-- Concrete fixture: a 2-key ring over `toyCurve` (with `hp` as the
constructors would precompute it). -/
def toyRingA : Ring (ZMod 5) (ZMod 5) :=
  { pubkeys := [1, 2], curve := toyCurve, hp := [3, 0] }

/-- Concrete fixture: `toyRingA` with its key list rotated by one. -/
def toyRingB : Ring (ZMod 5) (ZMod 5) :=
  { pubkeys := [2, 1], curve := toyCurve, hp := [0, 3] }

/-- Concrete fixture: a 32-byte message. -/
def toyMsg : List Nat :=
  List.replicate 32 0

/-- Concrete fixture: a signature whose response vector has the right
length but a nil element at index 1. -/
def toyBadSig : RingSig (ZMod 5) (ZMod 5) :=
  { ring := some toyRingA, c := some 0, s := [some 0, none], image := some 1 }

/-- Concrete fixture: a signature with a nil ring pointer. -/
def toyNilRingSig : RingSig (ZMod 5) (ZMod 5) :=
  { ring := none, c := some 0, s := [], image := some 0 }

/-- Concrete fixture: a well-formed serialized signature for `toyCurve`
with ring size 2 (so `4 + 32 + 1 + 2·33 = 103` canonical bytes) followed
by one extra trailing byte, total length 104. -/
def c6Input : List Nat :=
  [0, 0, 0, 2] ++ (0 :: List.replicate 31 0) ++ [1] ++
    ((0 :: List.replicate 31 0) ++ [1]) ++ ((0 :: List.replicate 31 0) ++ [2]) ++ [7]

end RingGo

namespace RingGo.LinkM

/-!
Model for `Link` (ring.go lines 390-400).  `Link` inspects the dynamic
type of `sigA.Ring().curve` only: for `*ed25519.CurveImpl` it multiplies
BOTH key images by the ed25519 cofactor scalar 8 and compares, otherwise
it compares the images directly.  The key images of the two curve
families have different dynamic point types, so the cross-type behaviour
of the point methods decides the mixed-curve cases.  The secp256k1 side
is pinned by the in-repo ethereum backend
(crypto/secp256k1_optimized.go build `ethereum_secp256k1`):
`ethereumPoint.Equals` uses a comma-ok assertion and returns `false` on a
foreign point, while `ethereumPoint.ScalarMul` asserts
`scalar.(*ethereumScalar)` WITHOUT comma-ok and panics on a foreign
scalar.  The ed25519 side lives in go-dleq; modelled from the spec:
ed25519 points are the cofactor-8 torsion component paired with the
prime-order component (a toy prime 11 stands in for the prime order),
scalar multiplication acts componentwise, and equality is value equality.
-/

/-- A key-image point as `Link` can receive it: an ed25519 point
(torsion component, prime-order component) or an in-repo ethereum-backend
secp256k1 point with its two coordinates. -/
inductive DynPoint where
  | edP : ZMod 8 → ZMod 11 → DynPoint
  | ethP : Int → Int → DynPoint

/-- A scalar as `Link` produces it: the cofactor comes from
`Ed25519().ScalarFromInt(8)`, so it is always an ed25519 scalar;
ethereum-backend scalars are included for the dispatch table. -/
inductive DynScalar where
  | edS : Nat → DynScalar
  | ethS : Int → DynScalar

/-- `ethereumPoint.IsZero` (crypto backend, part of the repo): both
coordinates zero.  (The nil-coordinate alternative of the Go code cannot
arise for a point built by the backend.) -/
def ethIsZero (x y : Int) : Bool :=
  x = 0 && y = 0

/-- `Point.ScalarMul` as dispatched on the dynamic types.  `none` is the
panic of `ethereumPoint.ScalarMul`'s bare type assertion on a foreign
scalar.  `Link` never multiplies an ed25519 point by an ethereum scalar
and never reaches ethereum-by-ethereum multiplication (its cofactor is
always an ed25519 scalar), so those two entries are `none` / unmodelled
external code respectively. -/
def DynPoint.scalarMul : DynPoint → DynScalar → Option DynPoint
  | .edP t p, .edS k => some (.edP (k • t) (k • p))
  | .ethP _ _, .edS _ => none
  | .edP _ _, .ethS _ => none
  | .ethP _ _, .ethS _ => none

/-- `Point.Equals` as dispatched on the dynamic types: ed25519 equality is
value equality (modelled from the spec); `ethereumPoint.Equals` compares
coordinates with the `IsZero` special case and returns `false` for a
foreign point via its comma-ok assertion. -/
def DynPoint.equals : DynPoint → DynPoint → Bool
  | .edP t1 p1, .edP t2 p2 => t1 = t2 && p1 = p2
  | .ethP x1 y1, .ethP x2 y2 =>
    if ethIsZero x1 y1 && ethIsZero x2 y2 then true
    else if ethIsZero x1 y1 || ethIsZero x2 y2 then false
    else x1 = x2 && y1 = y2
  | .ethP _ _, .edP _ _ => false
  | .edP _ _, .ethP _ _ => false

/-- What `Link` reads from a signature: the dynamic curve type of its
ring (`true` for `*ed25519.CurveImpl`) and its key image. -/
structure LinkSig where
  edCurve : Bool
  image : DynPoint

/-- `Link` (ring.go lines 390-400).  `some b` is a returned boolean,
`none` a panic reached inside the point operations. -/
def Link (sigA sigB : LinkSig) : Option Bool :=
  if sigA.edCurve then do
    let imageA ← sigA.image.scalarMul (.edS 8)
    let imageB ← sigB.image.scalarMul (.edS 8)
    pure (imageA.equals imageB)
  else
    some (sigA.image.equals sigB.image)

end RingGo.LinkM

namespace RingGo

variable {S P : Type} [CommRing S] [AddCommGroup P] [Module S P]
variable [DecidableEq S] [DecidableEq P]

/-- Any triggered guard of `Verify` yields `some false`. -/
theorem verify_guard_false {sig : RingSig S P} {m : List Nat} {rg : Ring S P}
    (hr : sig.ring = some rg)
    (h : rg.pubkeys.length < 2 ∨ sig.s.length ≠ rg.pubkeys.length ∨
      sig.c.isNone = true ∨ sig.image.isNone = true) :
    Verify sig m = some false := by
  unfold Verify
  rw [hr]
  exact if_pos h

/-- C2 (amended): `Verify` returns `false` (it does not raise) on a nil
ring, a nil challenge, a nil key image, a response vector whose length
differs from the ring size, or a ring size below 2.  (A nil element
INSIDE a correctly sized response vector is not guarded; see the
counterexample theorem.) -/
theorem c2_verify_guards (sig : RingSig S P) (m : List Nat) :
    (sig.ring = none → Verify sig m = some false)
    ∧ (sig.c = none → Verify sig m = some false)
    ∧ (sig.image = none → Verify sig m = some false)
    ∧ (∀ rg, sig.ring = some rg → sig.s.length ≠ rg.pubkeys.length →
        Verify sig m = some false)
    ∧ (∀ rg, sig.ring = some rg → rg.pubkeys.length < 2 →
        Verify sig m = some false) := by
  refine ⟨?_, ?_, ?_, ?_, ?_⟩
  · intro h
    unfold Verify
    rw [h]
  · intro h
    cases hr : sig.ring with
    | none => unfold Verify; rw [hr]
    | some rg => exact verify_guard_false hr (Or.inr (Or.inr (Or.inl (by simp [h]))))
  · intro h
    cases hr : sig.ring with
    | none => unfold Verify; rw [hr]
    | some rg => exact verify_guard_false hr (Or.inr (Or.inr (Or.inr (by simp [h]))))
  · intro rg hr h
    exact verify_guard_false hr (Or.inr (Or.inl h))
  · intro rg hr h
    exact verify_guard_false hr (Or.inl h)

/-- C2 witness: the guard theorem applied to the concrete nil-ring
signature. -/
theorem c2_verify_guards_witness : Verify toyNilRingSig toyMsg = some false :=
  (c2_verify_guards toyNilRingSig toyMsg).1 rfl

/-- C2 counterexample: a signature whose response vector has the ring's
length but holds a nil element is NOT caught by the guards: the loop
hands the nil scalar to the backend scalar multiplication, which panics
(modelled by `none`), instead of returning `false`. -/
theorem c2_nil_response_element_panics : Verify toyBadSig toyMsg = none := by
  decide

/-- C3 (amended): `NewKeyRing` performs no minimum-size check: with
`size = 1`, `idx = 0` and a non-zero secret it succeeds and returns a
1-element ring.  Its only rejections are `idx ≥ size` and a zero secret
(rings below size 2 are rejected later, by `Sign`). -/
theorem c3_newKeyRing_size_checks (C : Curve S P) (x : S) (tape : Nat → S)
    (hx : x ≠ 0) :
    (∃ r, NewKeyRing C 1 x 0 tape = .ok r ∧ r.pubkeys.length = 1)
    ∧ (∀ size idx : Int, size ≤ idx →
        NewKeyRing C size x idx tape = .err "index out of bounds")
    ∧ (∀ size idx : Int, idx < size →
        NewKeyRing C size 0 idx tape = .err "private key is zero") := by
  refine ⟨?_, ?_, ?_⟩
  · have h1 : NewKeyRing C 1 x 0 tape =
        .ok { pubkeys := [x • C.basePoint], curve := C
            , hp := [C.hashToCurve (x • C.basePoint)] } := by
      unfold NewKeyRing
      rw [if_neg (by norm_num), if_neg hx, if_neg (by norm_num), if_neg (by norm_num)]
      simp [List.range_succ]
    exact ⟨_, h1, rfl⟩
  · intro size idx h
    unfold NewKeyRing
    rw [if_pos h]
  · intro size idx h
    unfold NewKeyRing
    rw [if_neg (by omega), if_pos rfl]

/-- C3 witness: the amended theorem applied at the toy curve. -/
theorem c3_newKeyRing_size_checks_witness :
    (∃ r, NewKeyRing toyCurve 1 (1 : ZMod 5) 0 (fun _ => 1) = .ok r ∧
        r.pubkeys.length = 1)
    ∧ (∀ size idx : Int, size ≤ idx →
        NewKeyRing toyCurve size (1 : ZMod 5) idx (fun _ => 1) =
          .err "index out of bounds")
    ∧ (∀ size idx : Int, idx < size →
        NewKeyRing toyCurve size 0 idx (fun _ => 1) =
          .err "private key is zero") :=
  c3_newKeyRing_size_checks toyCurve 1 (fun _ => 1) (by decide)

/-- C3 counterexample: `NewKeyRing` with `size = 1` succeeds (the claim
says it fails with `InvalidSize` and returns no ring). -/
theorem c3_size_one_succeeds :
    (NewKeyRing toyCurve 1 (1 : ZMod 5) 0 (fun _ => 1)).isOk = true := by
  decide

/-- C4 (amended): a negative `idx` makes `NewKeyRingFromPublicKeys`
return an index-out-of-range error, but `NewKeyRing` only checks
`idx ≥ size`, so a negative `idx` (with a valid size and non-zero secret)
reaches the slice write `ring[idx] = pubkey` and panics instead of
returning an error. -/
theorem c4_negative_index (C : Curve S P) (pubkeys : List (PtObj P)) (x : S)
    (tape : Nat → S) (idx : Int) (hneg : idx < 0) :
    NewKeyRingFromPublicKeys C pubkeys x idx = .err "index out of bounds: idx < 0"
    ∧ (∀ size : Int, 0 ≤ size → x ≠ 0 →
        NewKeyRing C size x idx tape = .panic) := by
  constructor
  · unfold NewKeyRingFromPublicKeys
    rw [if_neg (by omega), if_pos hneg]
  · intro size hsize hx
    unfold NewKeyRing
    rw [if_neg (by omega), if_neg hx, if_neg (by omega), if_pos hneg]

/-- C4 witness: the amended theorem applied at the toy curve with
`idx = -1`. -/
theorem c4_negative_index_witness :
    NewKeyRingFromPublicKeys toyCurve [] (1 : ZMod 5) (-1) =
        .err "index out of bounds: idx < 0"
    ∧ (∀ size : Int, 0 ≤ size → (1 : ZMod 5) ≠ 0 →
        NewKeyRing toyCurve size (1 : ZMod 5) (-1) (fun _ => 1) = .panic) :=
  c4_negative_index toyCurve [] 1 (fun _ => 1) (-1) (by decide)

/-- C4 counterexample: `NewKeyRing` with a negative index panics (the
claim says every ring constructor returns an `IndexOutOfRange` error and
does not panic). -/
theorem c4_newKeyRing_negative_panics :
    (NewKeyRing toyCurve 2 (1 : ZMod 5) (-1) (fun _ => 1)).isPanic = true := by
  decide

/-- C5: `NewKeyRingFromPublicKeys` deduplicates through a Go map keyed by
interface identity, so a supplied key list already containing the point
`secret·G` (as its own object, as any caller-built point is) is NOT
rejected: the call succeeds and the resulting ring holds the same public
key twice, instead of failing with `DuplicatePubkey`. -/
theorem c5_duplicate_pubkey_not_detected :
    (NewKeyRingFromPublicKeys toyCurve [⟨0, 1⟩] (1 : ZMod 5) 0).isOk = true
    ∧ (NewKeyRingFromPublicKeys toyCurve [⟨0, 1⟩] (1 : ZMod 5) 0).ringPubkeys
        = [1, 1] := by
  decide

/-- The pointwise loop of `Ring.Equals` succeeds exactly on equal key
lists (given equal lengths). -/
theorem zip_all_eq_iff {l1 l2 : List P} (h : l1.length = l2.length) :
    (l1.zip l2).all (fun pq => pq.1 = pq.2) = true ↔ l1 = l2 := by
  induction l1 generalizing l2 with
  | nil =>
    cases l2 with
    | nil => simp
    | cons b bs => simp at h
  | cons a as ih =>
    cases l2 with
    | nil => simp at h
    | cons b bs =>
      simp only [List.zip_cons_cons, List.all_cons, Bool.and_eq_true,
        decide_eq_true_eq, List.cons.injEq]
      rw [ih (by simpa using h)]

/-- C9: `Ring.Equals` is `true` exactly when the two rings have equal key
lists (same size, pairwise equal at the same indices) and their curves
agree on base point and alternate base point; and a nontrivial rotation
of a duplicate-free ring is never `Equals`-equal to it. -/
theorem c9_ring_equals (r o : Ring S P) :
    (Equals r o = true ↔
      (r.pubkeys = o.pubkeys ∧ r.curve.basePoint = o.curve.basePoint ∧
        r.curve.altBasePoint = o.curve.altBasePoint))
    ∧ (∀ k : Nat, r.pubkeys.Nodup → 0 < k → k < r.pubkeys.length →
        o.pubkeys = r.pubkeys.rotate k → Equals r o = false) := by
  have main : Equals r o = true ↔
      (r.pubkeys = o.pubkeys ∧ r.curve.basePoint = o.curve.basePoint ∧
        r.curve.altBasePoint = o.curve.altBasePoint) := by
    unfold Equals
    split_ifs with h1 h2
    · constructor
      · intro h
        cases h
      · rintro ⟨hpk, -, -⟩
        exact absurd (congrArg List.length hpk) h1
    · rw [Bool.and_eq_true, decide_eq_true_eq, decide_eq_true_eq]
      have hpk := (zip_all_eq_iff (not_not.mp h1)).mp h2
      constructor
      · rintro ⟨hb, ha⟩
        exact ⟨hpk, hb, ha⟩
      · rintro ⟨-, hb, ha⟩
        exact ⟨hb, ha⟩
    · constructor
      · intro h
        cases h
      · rintro ⟨hpk, -, -⟩
        exact absurd ((zip_all_eq_iff (not_not.mp h1)).mpr hpk) h2
  refine ⟨main, ?_⟩
  intro k hnd hk hkl hrot
  cases h : Equals r o with
  | false => rfl
  | true =>
    exfalso
    have hpk := (main.mp h).1
    have hself : r.pubkeys.rotate k = r.pubkeys := by
      rw [← hrot, hpk]
    rcases hnd.rotate_eq_self_iff.mp hself with hmod | hnil
    · rw [Nat.mod_eq_of_lt hkl] at hmod
      omega
    · rw [hnil] at hkl
      simp at hkl

/-- C9 witness: the rotation clause applied to the concrete toy rings
(`toyRingB`'s keys are `toyRingA`'s rotated by one). -/
theorem c9_ring_equals_witness : Equals toyRingA toyRingB = false :=
  (c9_ring_equals toyRingA toyRingB).2 1 (by decide) (by decide) (by decide) (by decide)

/-- C10: `Ring.Sign` scans the ring in increasing index order: when no
key matches `x·G` it returns an error (no signature), and when `j` is the
smallest matching index it signs exactly as `Sign` at index `j`. -/
theorem c10_ring_sign_scan (r : Ring S P) (m : List Nat) (x : S) (tape : Nat → S)
    (hx : x ≠ 0) :
    ((∀ p ∈ r.pubkeys, p ≠ x • r.curve.basePoint) →
      Ring.Sign r m x tape = .err "failed to find given key in public key set")
    ∧ (∀ j (hj : j < r.pubkeys.length),
        r.pubkeys.get ⟨j, hj⟩ = x • r.curve.basePoint →
        (∀ i (hi : i < j), r.pubkeys.get ⟨i, Nat.lt_trans hi hj⟩ ≠ x • r.curve.basePoint) →
        Ring.Sign r m x tape = RingGo.Sign m r x j tape) := by
  constructor
  · intro hnone
    have hfi : r.pubkeys.findIdx? (fun pk => pk = x • r.curve.basePoint) = none := by
      rw [List.findIdx?_eq_none_iff]
      intro p hp
      exact decide_eq_false (hnone p hp)
    unfold Ring.Sign
    simp only [hfi]
  · intro j hj hmatch hbefore
    have hfi : r.pubkeys.findIdx? (fun pk => pk = x • r.curve.basePoint) = some j := by
      rw [List.findIdx?_eq_some_iff_getElem]
      refine ⟨hj, ?_, ?_⟩
      · simpa [List.get_eq_getElem] using hmatch
      · intro i hi
        have := hbefore i hi
        simp only [List.get_eq_getElem] at this
        simpa using this
    unfold Ring.Sign
    simp only [hfi]

/-- C10 witness: the no-match clause applied at a concrete toy ring
(secret 3, whose public key `3·G = 3` is not in `toyRingA`). -/
theorem c10_ring_sign_scan_witness :
    Ring.Sign toyRingA toyMsg (3 : ZMod 5) (fun _ => 1) =
      .err "failed to find given key in public key set" :=
  (c10_ring_sign_scan toyRingA toyMsg 3 (fun _ => 1) (by decide)).1 (by decide)

end RingGo

namespace RingGo.LinkM

/-- Multiplying by the cofactor 8 cancels exactly the torsion component:
on the prime-order component it is injective. -/
theorem ed_cofactor_prime_cancel :
    ∀ pa pb : ZMod 11, ((8 : ZMod 11) * pa = 8 * pb ↔ pa = pb) := by
  decide

/-- Multiplying by the cofactor 8 kills every torsion component. -/
theorem ed_cofactor_torsion_killed : ∀ ta tb : ZMod 8, (8 : ZMod 8) * ta = 8 * tb := by
  decide

/-- C8 (amended): `Link` branches on the dynamic curve type of the FIRST
signature only.  For two Ed25519 signatures it multiplies both images by
the cofactor 8 and compares, which equates images agreeing on the
prime-order component; for a first signature over secp256k1 it compares
the images directly with the secp256k1 `Equals` (so a mixed pair with a
secp256k1 first signature yields `false` through the failing comma-ok
type assertion); but for a mixed pair whose FIRST signature is Ed25519 it
applies the Ed25519 cofactor scalar to the secp256k1 image, whose bare
type assertion panics — `Link` does not return `false` there. -/
theorem c8_link_cases (a b : LinkSig) :
    (∀ ta pa tb pb, a.edCurve = true →
      a.image = .edP ta pa → b.image = .edP tb pb →
      Link a b = some (decide (pa = pb)))
    ∧ (∀ x1 y1 x2 y2, a.edCurve = false →
      a.image = .ethP x1 y1 → b.image = .ethP x2 y2 →
      Link a b = some (DynPoint.equals (.ethP x1 y1) (.ethP x2 y2)))
    ∧ (∀ x1 y1 tb pb, a.edCurve = false →
      a.image = .ethP x1 y1 → b.image = .edP tb pb →
      Link a b = some false)
    ∧ (∀ ta pa x2 y2, a.edCurve = true →
      a.image = .edP ta pa → b.image = .ethP x2 y2 →
      Link a b = none) := by
  refine ⟨?_, ?_, ?_, ?_⟩
  · intro ta pa tb pb ha hia hib
    have h1 : decide ((8 : ZMod 8) * ta = 8 * tb) = true :=
      decide_eq_true (ed_cofactor_torsion_killed ta tb)
    have h2 : decide ((8 : ZMod 11) * pa = 8 * pb) = decide (pa = pb) :=
      decide_eq_decide.mpr (ed_cofactor_prime_cancel pa pb)
    simp [Link, ha, hia, hib, DynPoint.scalarMul, DynPoint.equals, h1, h2]
  · intro x1 y1 x2 y2 ha hia hib
    simp [Link, ha, hia, hib]
  · intro x1 y1 tb pb ha hia hib
    simp [Link, ha, hia, hib, DynPoint.equals]
  · intro ta pa x2 y2 ha hia hib
    simp [Link, ha, hia, hib, DynPoint.scalarMul]

/-- C8 witness: the Ed25519 clause applied to two concrete images that
differ only in the torsion component, which `Link` therefore links. -/
theorem c8_link_cases_witness :
    Link { edCurve := true, image := .edP 1 2 } { edCurve := true, image := .edP 3 2 }
      = some true :=
  (c8_link_cases { edCurve := true, image := .edP 1 2 }
    { edCurve := true, image := .edP 3 2 }).1 1 2 3 2 rfl rfl rfl

/-- C8 counterexample: a mixed-curve pair whose first signature is over
Ed25519 makes `Link` panic inside the secp256k1 point's scalar
multiplication (bare type assertion on the Ed25519 cofactor scalar), so
`Link` does not return `false` for every mixed-curve pair. -/
theorem c8_mixed_curve_panics :
    Link { edCurve := true, image := .edP 0 1 } { edCurve := false, image := .ethP 1 2 }
      = none := by
  decide

end RingGo.LinkM

namespace RingGo

variable {S P : Type} [CommRing S] [AddCommGroup P] [Module S P]
variable [DecidableEq S] [DecidableEq P]

/-- Taking exactly the prefix of an append. -/
theorem take_prefix_eq {α : Type} (a b : List α) {k : Nat} (h : a.length = k) :
    (a ++ b).take k = a := by
  subst h
  rw [List.take_append_of_le_length (le_refl _), List.take_length]

/-- Dropping exactly the prefix of an append. -/
theorem drop_prefix_eq {α : Type} (a b : List α) {k : Nat} (h : a.length = k) :
    (a ++ b).drop k = b := by
  subst h
  rw [List.drop_append_of_le_length (le_refl _), List.drop_length, List.nil_append]

/-- Big-endian `uint32` encode/decode round-trip. -/
theorem beUint32_roundtrip (n : Nat) (h : n < 2 ^ 32) :
    beUint32Decode (beUint32Encode n) = n := by
  dsimp only [beUint32Encode, beUint32Decode]
  norm_num
  omega

/-- The serialized body of an `n`-slot signature is `n·(32 + P)` bytes. -/
theorem segsOf_length (C : Curve S P) :
    ∀ (sl : List S) (pl : List P), sl.length = pl.length →
      (segsOf C sl pl).length = sl.length * (32 + C.compressedPointSize) := by
  intro sl
  induction sl with
  | nil =>
    intro pl h
    simp [segsOf]
  | cons a as ih =>
    intro pl h
    cases pl with
    | nil => simp at h
    | cons b bs =>
      simp only [segsOf, List.length_append, C.encodeScalar_length, C.encodePoint_length,
        List.length_cons, ih bs (by simpa using h)]
      ring

/-- `segsOf` of a snoc pair appends one more segment. -/
theorem segsOf_snoc (C : Curve S P) :
    ∀ (as : List S) (bs : List P) (a : S) (b : P), as.length = bs.length →
      segsOf C (as ++ [a]) (bs ++ [b]) =
        segsOf C as bs ++ (C.encodeScalar a ++ C.encodePoint b) := by
  intro as
  induction as with
  | nil =>
    intro bs a b h
    cases bs with
    | nil => simp [segsOf]
    | cons b2 bs2 => simp at h
  | cons a2 as2 ih =>
    intro bs a b h
    cases bs with
    | nil => simp at h
    | cons b2 bs2 =>
      have hx := ih bs2 a b (by simpa using h)
      simp only [List.cons_append, segsOf, List.append_eq, hx, List.append_assoc]

/-- The per-slot write loop of `Serialize` produces the closed-form body. -/
theorem serializeBody_segsOf (C : Curve S P) (sl : List S) (pl : List P) :
    ∀ k, k ≤ sl.length → k ≤ pl.length →
      serializeBody C (sl.map some) pl k = some (segsOf C (sl.take k) (pl.take k)) := by
  intro k
  induction k with
  | zero =>
    intro h1 h2
    rfl
  | succ k ih =>
    intro h1 h2
    have hk1 : k < sl.length := by omega
    have hk2 : k < pl.length := by omega
    have hs : (sl.map some).getD k none = some (sl.getD k 0) := by
      rw [List.getD_eq_getElem?_getD, List.getD_eq_getElem?_getD,
        List.getElem?_map, List.getElem?_eq_getElem hk1]
      rfl
    have hrec := ih (by omega) (by omega)
    simp only [serializeBody, hrec, hs, Option.bind_eq_bind, Option.some_bind]
    have htake1 : sl.take (k + 1) = sl.take k ++ [sl.getD k 0] := by
      rw [List.take_succ, List.getElem?_eq_getElem hk1, List.getD_eq_getElem?_getD,
        List.getElem?_eq_getElem hk1]
      rfl
    have htake2 : pl.take (k + 1) = pl.take k ++ [pl.getD k 0] := by
      rw [List.take_succ, List.getElem?_eq_getElem hk2, List.getD_eq_getElem?_getD,
        List.getElem?_eq_getElem hk2]
      rfl
    rw [htake1, htake2, segsOf_snoc C _ _ _ _ (by simp [List.length_take]; omega)]
    simp [List.append_assoc]

/-- `Serialize` on a fully populated signature: the canonical layout. -/
theorem Serialize_wellformed (rg : Ring S P) (c : S) (img : P) (sl : List S)
    (h : sl.length = rg.pubkeys.length) :
    Serialize { ring := some rg, c := some c, s := sl.map some, image := some img } =
      some (beUint32Encode rg.pubkeys.length ++ rg.curve.encodeScalar c ++
        rg.curve.encodePoint img ++ segsOf rg.curve sl rg.pubkeys) := by
  have hb := serializeBody_segsOf rg.curve sl rg.pubkeys rg.pubkeys.length
    (by omega) (le_refl _)
  rw [List.take_length] at hb
  rw [show sl.take rg.pubkeys.length = sl from by rw [← h, List.take_length]] at hb
  unfold Serialize
  dsimp only
  rw [hb]
  rfl

/-- The read loop of `Deserialize` inverts the serialized body, ignoring
any trailing bytes. -/
theorem deserializePairs_segsOf (C : Curve S P) :
    ∀ (sl : List S) (pl : List P) (extra : List Nat), sl.length = pl.length →
      deserializePairs C sl.length (segsOf C sl pl ++ extra) = .ok (sl, pl) := by
  intro sl
  induction sl with
  | nil =>
    intro pl extra h
    cases pl with
    | nil => rfl
    | cons b bs => simp at h
  | cons a as ih =>
    intro pl extra h
    cases pl with
    | nil => simp at h
    | cons b bs =>
      have hlen : as.length = bs.length := by simpa using h
      have hshape : segsOf C (a :: as) (b :: bs) ++ extra =
          C.encodeScalar a ++ (C.encodePoint b ++ (segsOf C as bs ++ extra)) := by
        simp [segsOf, List.append_assoc]
      show deserializePairs C (as.length + 1) (segsOf C (a :: as) (b :: bs) ++ extra)
        = .ok (a :: as, b :: bs)
      rw [hshape]
      have hc1 : ¬ ((C.encodeScalar a ++
          (C.encodePoint b ++ (segsOf C as bs ++ extra))).length < 32) := by
        simp [C.encodeScalar_length]
      have ht1 := take_prefix_eq (C.encodeScalar a)
        (C.encodePoint b ++ (segsOf C as bs ++ extra)) (C.encodeScalar_length a)
      have hd1 := drop_prefix_eq (C.encodeScalar a)
        (C.encodePoint b ++ (segsOf C as bs ++ extra)) (C.encodeScalar_length a)
      have hc2 : ¬ ((C.encodePoint b ++
          (segsOf C as bs ++ extra)).length < C.compressedPointSize) := by
        simp [C.encodePoint_length]
      have ht2 := take_prefix_eq (C.encodePoint b) (segsOf C as bs ++ extra)
        (C.encodePoint_length b)
      have hd2 := drop_prefix_eq (C.encodePoint b) (segsOf C as bs ++ extra)
        (C.encodePoint_length b)
      have hrec := ih bs extra hlen
      simp only [deserializePairs, hc1, ht1, hd1, hc2, ht2, hd2,
        C.decode_encodeScalar, C.decode_encodePoint, hrec, if_false]

/-- `Deserialize` on the canonical byte stream of a fully populated
signature, with arbitrary trailing bytes: it succeeds, never reading the
trailing bytes, and recomputes `hp` from the decoded public keys. -/
theorem Deserialize_canonical (C : Curve S P) (c : S) (img : P) (sl : List S)
    (pl : List P) (extra : List Nat) (hlen : sl.length = pl.length)
    (h2 : 2 ≤ pl.length) (h32 : pl.length < 2 ^ 32) :
    Deserialize C (beUint32Encode pl.length ++ C.encodeScalar c ++
        C.encodePoint img ++ segsOf C sl pl ++ extra) =
      .ok { ring := some { pubkeys := pl, curve := C, hp := pl.map C.hashToCurve }
          , c := some c, s := sl.map some, image := some img } := by
  have hbe : (beUint32Encode pl.length).length = 4 := rfl
  have hsegs : (segsOf C sl pl).length = pl.length * (32 + C.compressedPointSize) := by
    rw [segsOf_length C sl pl hlen, hlen]
  have htake4 : (beUint32Encode pl.length ++ (C.encodeScalar c ++
      (C.encodePoint img ++ (segsOf C sl pl ++ extra)))).take 4 =
      beUint32Encode pl.length :=
    take_prefix_eq _ _ hbe
  have hdrop4 : (beUint32Encode pl.length ++ (C.encodeScalar c ++
      (C.encodePoint img ++ (segsOf C sl pl ++ extra)))).drop 4 =
      C.encodeScalar c ++ (C.encodePoint img ++ (segsOf C sl pl ++ extra)) :=
    drop_prefix_eq _ _ hbe
  have hsize : beUint32Decode ((beUint32Encode pl.length ++ (C.encodeScalar c ++
      (C.encodePoint img ++ (segsOf C sl pl ++ extra)))).take 4) = pl.length := by
    rw [htake4, beUint32_roundtrip pl.length h32]
  have hinplen : (beUint32Encode pl.length ++ (C.encodeScalar c ++
      (C.encodePoint img ++ (segsOf C sl pl ++ extra)))).length =
      4 + 32 + C.compressedPointSize + pl.length * (32 + C.compressedPointSize)
        + extra.length := by
    simp only [List.length_append, hbe, C.encodeScalar_length,
      C.encodePoint_length, hsegs]
    ring
  have hc4 : ¬ ((beUint32Encode pl.length ++ (C.encodeScalar c ++
      (C.encodePoint img ++ (segsOf C sl pl ++ extra)))).length < 4) := by omega
  have hcn : ¬ (pl.length < 2) := by omega
  have hcneed : ¬ ((beUint32Encode pl.length ++ (C.encodeScalar c ++
      (C.encodePoint img ++ (segsOf C sl pl ++ extra)))).length <
      4 + 32 + C.compressedPointSize + pl.length * (32 + C.compressedPointSize)) := by
    omega
  have hc32r : ¬ ((C.encodeScalar c ++ (C.encodePoint img ++
      (segsOf C sl pl ++ extra))).length < 32) := by
    simp [C.encodeScalar_length]
  have htakec : (C.encodeScalar c ++ (C.encodePoint img ++
      (segsOf C sl pl ++ extra))).take 32 = C.encodeScalar c :=
    take_prefix_eq _ _ (C.encodeScalar_length c)
  have hdropc : (C.encodeScalar c ++ (C.encodePoint img ++
      (segsOf C sl pl ++ extra))).drop 32 =
      C.encodePoint img ++ (segsOf C sl pl ++ extra) :=
    drop_prefix_eq _ _ (C.encodeScalar_length c)
  have hcimg : ¬ ((C.encodePoint img ++ (segsOf C sl pl ++ extra)).length
      < C.compressedPointSize) := by
    simp [C.encodePoint_length]
  have htakei : (C.encodePoint img ++ (segsOf C sl pl ++ extra)).take
      C.compressedPointSize = C.encodePoint img :=
    take_prefix_eq _ _ (C.encodePoint_length img)
  have hdropi : (C.encodePoint img ++ (segsOf C sl pl ++ extra)).drop
      C.compressedPointSize = segsOf C sl pl ++ extra :=
    drop_prefix_eq _ _ (C.encodePoint_length img)
  have hdp : deserializePairs C pl.length (segsOf C sl pl ++ extra) = .ok (sl, pl) := by
    rw [← hlen]
    exact deserializePairs_segsOf C sl pl extra hlen
  have hshape : beUint32Encode pl.length ++ C.encodeScalar c ++
      C.encodePoint img ++ segsOf C sl pl ++ extra =
      beUint32Encode pl.length ++ (C.encodeScalar c ++
        (C.encodePoint img ++ (segsOf C sl pl ++ extra))) := by
    simp [List.append_assoc]
  rw [hshape]
  simp only [Deserialize, hc4, if_false, hsize, hcn, hcneed, hdrop4, hc32r,
    htakec, C.decode_encodeScalar, hdropc, hcimg, htakei, C.decode_encodePoint,
    hdropi, hdp]

/-- C6 (amended): `Deserialize` fails with `InvalidSize` when the declared
ring size is below 2, and fails with a too-short error when the input is
SHORTER than `4 + 32 + P + n·(32 + P)` bytes; but it checks only that
minimum, so an input with a correct prefix and extra trailing bytes is
accepted (the trailing bytes are ignored), not rejected. -/
theorem c6_deserialize_length_checks (C : Curve S P) :
    (∀ inp : List Nat, ¬ (inp.length < 4) → beUint32Decode (inp.take 4) < 2 →
      Deserialize C inp = .err "invalid ring size")
    ∧ (∀ inp : List Nat, ¬ (inp.length < 4) → 2 ≤ beUint32Decode (inp.take 4) →
        inp.length < 4 + 32 + C.compressedPointSize +
          beUint32Decode (inp.take 4) * (32 + C.compressedPointSize) →
        Deserialize C inp = .err "input too short")
    ∧ (∀ (c : S) (img : P) (sl : List S) (pl : List P) (extra : List Nat),
        sl.length = pl.length → 2 ≤ pl.length → pl.length < 2 ^ 32 →
        (Deserialize C (beUint32Encode pl.length ++ C.encodeScalar c ++
          C.encodePoint img ++ segsOf C sl pl ++ extra)).isOk = true) := by
  refine ⟨?_, ?_, ?_⟩
  · intro inp h4 hsz
    unfold Deserialize
    rw [if_neg h4, if_pos hsz]
  · intro inp h4 hsz hshort
    unfold Deserialize
    rw [if_neg h4, if_neg (by omega), if_pos hshort]
  · intro c img sl pl extra hlen h2 h32
    rw [Deserialize_canonical C c img sl pl extra hlen h2 h32]
    rfl

/-- C6 witness: the amended theorem applied at the toy curve (size-1
rejection, truncation rejection, and acceptance of a trailing byte). -/
theorem c6_deserialize_length_checks_witness :
    Deserialize toyCurve [0, 0, 0, 1] = .err "invalid ring size"
    ∧ Deserialize toyCurve [0, 0, 0, 2, 9] = .err "input too short"
    ∧ (Deserialize toyCurve (beUint32Encode 2 ++ toyCurve.encodeScalar 0 ++
        toyCurve.encodePoint 1 ++ segsOf toyCurve [0, 0] [1, 2] ++ [7])).isOk = true := by
  refine ⟨?_, ?_, ?_⟩
  · exact (c6_deserialize_length_checks toyCurve).1 [0, 0, 0, 1] (by decide) (by decide)
  · exact (c6_deserialize_length_checks toyCurve).2.1 [0, 0, 0, 2, 9] (by decide)
      (by decide) (by decide)
  · exact (c6_deserialize_length_checks toyCurve).2.2 0 1 [0, 0] [1, 2] [7]
      (by decide) (by decide) (by decide)

/-- C6 counterexample: a concrete input with the correct prefix for a
size-2 toy-curve signature but one extra trailing byte (length 104, not
the canonical 103) is accepted by `Deserialize`, while the claim says any
total length different from the canonical one is rejected. -/
theorem c6_trailing_byte_accepted : (Deserialize toyCurve c6Input).isOk = true := by
  decide

/-- Byte extraction inside the serialized body: slot `i` holds
`encode s[i]` at offset `i·(32 + P)` and `encode pubkeys[i]` right
after it. -/
theorem segsOf_segment (C : Curve S P) :
    ∀ (i : Nat) (sl : List S) (pl : List P), sl.length = pl.length →
      i < sl.length →
      ((segsOf C sl pl).drop (i * (32 + C.compressedPointSize))).take 32 =
        C.encodeScalar (sl.getD i 0)
      ∧ ((segsOf C sl pl).drop (i * (32 + C.compressedPointSize) + 32)).take
          C.compressedPointSize = C.encodePoint (pl.getD i 0) := by
  intro i
  induction i with
  | zero =>
    intro sl pl hlen hi
    cases sl with
    | nil => simp at hi
    | cons a as =>
      cases pl with
      | nil => simp at hlen
      | cons b bs =>
        have hsh : segsOf C (a :: as) (b :: bs) =
            C.encodeScalar a ++ (C.encodePoint b ++ segsOf C as bs) := by
          simp [segsOf, List.append_assoc]
        simp only [hsh, List.getD_cons_zero, Nat.zero_mul, Nat.zero_add,
          List.drop_zero]
        constructor
        · exact take_prefix_eq _ _ (C.encodeScalar_length a)
        · rw [drop_prefix_eq _ _ (C.encodeScalar_length a)]
          exact take_prefix_eq _ _ (C.encodePoint_length b)
  | succ i ih =>
    intro sl pl hlen hi
    cases sl with
    | nil => simp at hi
    | cons a as =>
      cases pl with
      | nil => simp at hlen
      | cons b bs =>
        have hlen2 : as.length = bs.length := by simpa using hlen
        have hi2 : i < as.length := by simpa using hi
        have hpre : (C.encodeScalar a ++ C.encodePoint b).length =
            32 + C.compressedPointSize := by
          simp [C.encodeScalar_length, C.encodePoint_length]
        have hshape : segsOf C (a :: as) (b :: bs) =
            (C.encodeScalar a ++ C.encodePoint b) ++ segsOf C as bs := by
          simp [segsOf, List.append_assoc]
        have harith1 : (i + 1) * (32 + C.compressedPointSize) =
            (C.encodeScalar a ++ C.encodePoint b).length +
              i * (32 + C.compressedPointSize) := by
          rw [hpre]
          ring
        have harith2 : (i + 1) * (32 + C.compressedPointSize) + 32 =
            (C.encodeScalar a ++ C.encodePoint b).length +
              (i * (32 + C.compressedPointSize) + 32) := by
          rw [hpre]
          ring
        have h1 := (ih as bs hlen2 hi2).1
        have h2 := (ih as bs hlen2 hi2).2
        constructor
        · rw [hshape, harith1, List.drop_append]
          simpa using h1
        · rw [hshape, harith2, List.drop_append]
          simpa using h2

/-- C7: `Serialize` on a well-formed signature over an `n`-key ring
produces exactly the canonical layout: the 4-byte big-endian `n`, the
32-byte challenge, the `P`-byte compressed image, then
`s[i] ‖ pubkeys[i]` for each slot in ring order; the total length is
`4 + 32 + P + n·(32 + P)`. -/
theorem c7_serialize_layout (rg : Ring S P) (c : S) (img : P) (sl : List S)
    (hlen : sl.length = rg.pubkeys.length) :
    ∃ out,
      Serialize { ring := some rg, c := some c, s := sl.map some, image := some img }
        = some out
      ∧ out.length = 4 + 32 + rg.curve.compressedPointSize
          + rg.pubkeys.length * (32 + rg.curve.compressedPointSize)
      ∧ out.take 4 = beUint32Encode rg.pubkeys.length
      ∧ (out.drop 4).take 32 = rg.curve.encodeScalar c
      ∧ (out.drop 36).take rg.curve.compressedPointSize = rg.curve.encodePoint img
      ∧ (∀ i, i < rg.pubkeys.length →
          ((out.drop (36 + rg.curve.compressedPointSize +
              i * (32 + rg.curve.compressedPointSize))).take 32
            = rg.curve.encodeScalar (sl.getD i 0))
          ∧ ((out.drop (36 + rg.curve.compressedPointSize +
              i * (32 + rg.curve.compressedPointSize) + 32)).take
                rg.curve.compressedPointSize
            = rg.curve.encodePoint (rg.pubkeys.getD i 0))) := by
  refine ⟨_, Serialize_wellformed rg c img sl hlen, ?_, ?_, ?_, ?_, ?_⟩
  · simp only [List.length_append, rg.curve.encodeScalar_length,
      rg.curve.encodePoint_length, segsOf_length rg.curve sl rg.pubkeys hlen, hlen]
    rfl
  · have hR : beUint32Encode rg.pubkeys.length ++ rg.curve.encodeScalar c ++
        rg.curve.encodePoint img ++ segsOf rg.curve sl rg.pubkeys =
        beUint32Encode rg.pubkeys.length ++ (rg.curve.encodeScalar c ++
          (rg.curve.encodePoint img ++ segsOf rg.curve sl rg.pubkeys)) := by
      simp [List.append_assoc]
    rw [hR]
    exact take_prefix_eq _ _ rfl
  · have hR : beUint32Encode rg.pubkeys.length ++ rg.curve.encodeScalar c ++
        rg.curve.encodePoint img ++ segsOf rg.curve sl rg.pubkeys =
        beUint32Encode rg.pubkeys.length ++ (rg.curve.encodeScalar c ++
          (rg.curve.encodePoint img ++ segsOf rg.curve sl rg.pubkeys)) := by
      simp [List.append_assoc]
    have hbe4 : (beUint32Encode rg.pubkeys.length).length = 4 := by
      simp [beUint32Encode]
    rw [hR, drop_prefix_eq _ _ hbe4]
    exact take_prefix_eq _ _ (rg.curve.encodeScalar_length c)
  · have hR : beUint32Encode rg.pubkeys.length ++ rg.curve.encodeScalar c ++
        rg.curve.encodePoint img ++ segsOf rg.curve sl rg.pubkeys =
        (beUint32Encode rg.pubkeys.length ++ rg.curve.encodeScalar c) ++
          (rg.curve.encodePoint img ++ segsOf rg.curve sl rg.pubkeys) := by
      simp [List.append_assoc]
    have hpre : (beUint32Encode rg.pubkeys.length ++ rg.curve.encodeScalar c).length
        = 36 := by
      rw [List.length_append, rg.curve.encodeScalar_length]
      rfl
    rw [hR, drop_prefix_eq _ _ hpre]
    exact take_prefix_eq _ _ (rg.curve.encodePoint_length img)
  · intro i hi
    have hseg := segsOf_segment rg.curve i sl rg.pubkeys hlen (by omega)
    have hprelen : (beUint32Encode rg.pubkeys.length ++ rg.curve.encodeScalar c ++
        rg.curve.encodePoint img).length = 36 + rg.curve.compressedPointSize := by
      simp only [List.length_append, rg.curve.encodeScalar_length,
        rg.curve.encodePoint_length]
      rfl
    constructor
    · have harith : 36 + rg.curve.compressedPointSize +
          i * (32 + rg.curve.compressedPointSize) =
          (beUint32Encode rg.pubkeys.length ++ rg.curve.encodeScalar c ++
            rg.curve.encodePoint img).length +
            i * (32 + rg.curve.compressedPointSize) := by
        rw [hprelen]
      rw [harith, List.drop_append]
      exact hseg.1
    · have harith : 36 + rg.curve.compressedPointSize +
          i * (32 + rg.curve.compressedPointSize) + 32 =
          (beUint32Encode rg.pubkeys.length ++ rg.curve.encodeScalar c ++
            rg.curve.encodePoint img).length +
            (i * (32 + rg.curve.compressedPointSize) + 32) := by
        rw [hprelen]
        ring
      rw [harith, List.drop_append]
      exact hseg.2

/-- C7 witness: the layout theorem applied to a concrete toy signature
over a 2-key ring. -/
theorem c7_serialize_layout_witness :
    ∃ out,
      Serialize { ring := some toyRingA, c := some 3, s := List.map some [1, 4], image := some 2 }
        = some out
      ∧ out.length = 4 + 32 + toyCurve.compressedPointSize
          + toyRingA.pubkeys.length * (32 + toyCurve.compressedPointSize)
      ∧ out.take 4 = beUint32Encode toyRingA.pubkeys.length
      ∧ (out.drop 4).take 32 = toyCurve.encodeScalar 3
      ∧ (out.drop 36).take toyCurve.compressedPointSize = toyCurve.encodePoint 2
      ∧ (∀ i, i < toyRingA.pubkeys.length →
          ((out.drop (36 + toyCurve.compressedPointSize +
              i * (32 + toyCurve.compressedPointSize))).take 32
            = toyCurve.encodeScalar (List.getD [1, 4] i 0))
          ∧ ((out.drop (36 + toyCurve.compressedPointSize +
              i * (32 + toyCurve.compressedPointSize) + 32)).take
                toyCurve.compressedPointSize
            = toyCurve.encodePoint (toyRingA.pubkeys.getD i 0))) :=
  c7_serialize_layout toyRingA 3 2 [1, 4] (by decide)

/-- Slots `(j+1) % n, ..., (j+n) % n` are pairwise distinct: the window
offsets `1..n` are recoverable from the slot. -/
theorem mod_window_inj {n j a b : Nat} (ha1 : 1 ≤ a) (han : a ≤ n) (hb1 : 1 ≤ b)
    (hbn : b ≤ n) (h : (j + a) % n = (j + b) % n) : a = b := by
  have hab : a % n = b % n := Nat.ModEq.add_left_cancel' j h
  rcases Nat.lt_or_ge a n with ha | ha
  · rcases Nat.lt_or_ge b n with hb | hb
    · rwa [Nat.mod_eq_of_lt ha, Nat.mod_eq_of_lt hb] at hab
    · have hbn2 : b = n := by omega
      subst hbn2
      rw [Nat.mod_eq_of_lt ha, Nat.mod_self] at hab
      omega
  · have han2 : a = n := by omega
    rcases Nat.lt_or_ge b n with hb | hb
    · rw [han2, Nat.mod_self, Nat.mod_eq_of_lt hb] at hab
      omega
    · omega

/-- Reading a slot of a range-map list. -/
theorem getD_range_map {α : Type} (f : Nat → α) (d : α) {i n : Nat} (h : i < n) :
    ((List.range n).map f).getD i d = f i := by
  rw [List.getD_eq_getElem?_getD, List.getElem?_map, List.getElem?_range h]
  rfl

/-- Reading a slot of a mapped list. -/
theorem getD_map_of_lt {α β : Type} (f : α → β) (l : List α) (d : α) (d2 : β)
    {i : Nat} (h : i < l.length) : (l.map f).getD i d2 = f (l.getD i d) := by
  rw [List.getD_eq_getElem?_getD, List.getD_eq_getElem?_getD, List.getElem?_map,
    List.getElem?_eq_getElem h]
  rfl

/-- The challenge slots the signing loop has written after `t` iterations
hold exactly the `cSeq` values: slot `(j+k+1) % n` holds `cSeq k` for
every `k ≤ t`. -/
theorem signLoop_c_spec (C : Curve S P) (m : List Nat) (pubkeys hp : List P)
    (image : P) (j n : Nat) (tape : Nat → S) (u : S) (h : P)
    (hn : 2 ≤ n) (hj : j < n) :
    ∀ t, t ≤ n - 1 → ∀ k, k ≤ t →
      (signLoop C m pubkeys hp image j n tape
        (Function.update (fun _ => 0) ((j + 1) % n)
          (challenge C m (u • C.basePoint) (u • h))) t).1 ((j + k + 1) % n) =
      cSeq C m pubkeys hp image j n u h tape k := by
  intro t
  induction t with
  | zero =>
    intro ht k hk
    obtain rfl : k = 0 := by omega
    show Function.update (fun _ => (0 : S)) ((j + 1) % n)
      (challenge C m (u • C.basePoint) (u • h)) ((j + 0 + 1) % n) = _
    rw [show j + 0 + 1 = j + 1 from rfl, Function.update_same]
    rfl
  | succ t ih =>
    intro ht k hk
    simp only [signLoop]
    rw [show j + (t + 1) = j + t + 1 from rfl, Nat.mod_add_mod,
      ih (by omega) t (le_refl t)]
    rcases Nat.eq_or_lt_of_le hk with rfl | hlt
    · rw [show j + (t + 1) + 1 = j + t + 1 + 1 from rfl, Function.update_same]
      rfl
    · have hne : (j + k + 1) % n ≠ (j + t + 1 + 1) % n := by
        intro heq
        have := mod_window_inj (n := n) (j := j) (a := k + 1) (b := t + 2)
          (by omega) (by omega) (by omega) (by omega) heq
        omega
      rw [Function.update_noteq hne]
      exact ih (by omega) k (by omega)

/-- The response slots the signing loop has written after `t` iterations:
slot `(j+k) % n` holds `tape k` for every `1 ≤ k ≤ t`. -/
theorem signLoop_s_spec (C : Curve S P) (m : List Nat) (pubkeys hp : List P)
    (image : P) (j n : Nat) (tape : Nat → S) (cInit : Nat → S)
    (hn : 2 ≤ n) (hj : j < n) :
    ∀ t, t ≤ n - 1 → ∀ k, 1 ≤ k → k ≤ t →
      (signLoop C m pubkeys hp image j n tape cInit t).2 ((j + k) % n) = tape k := by
  intro t
  induction t with
  | zero =>
    intro ht k hk1 hk2
    omega
  | succ t ih =>
    intro ht k hk1 hk2
    simp only [signLoop]
    rw [show j + (t + 1) = j + t + 1 from rfl]
    rcases Nat.eq_or_lt_of_le hk2 with rfl | hlt
    · rw [show j + (t + 1) = j + t + 1 from rfl, Function.update_same]
    · have hne : (j + k) % n ≠ (j + t + 1) % n := by
        intro heq
        have := mod_window_inj (n := n) (j := j) (a := k) (b := t + 1)
          (by omega) (by omega) (by omega) (by omega) heq
        omega
      rw [Function.update_noteq hne]
      exact ih (by omega) k hk1 (by omega)

/-- The verification walk on a locally closed chain reproduces the chain:
after `i ≤ n` steps it sits at `cArr (i % n)`. -/
theorem verifyChain_closed (C : Curve S P) (m : List Nat) (pubkeys hp : List P)
    (image : P) (s : List (Option S)) (cArr sArr : Nat → S) (n : Nat)
    (hn : 1 ≤ n)
    (hs : ∀ i, i < n → s.getD i none = some (sArr i))
    (hclose : ∀ i, i < n → cArr ((i + 1) % n) =
      chainStep C m pubkeys hp image i (cArr i) (sArr i)) :
    ∀ i, i ≤ n →
      verifyChain C m pubkeys hp image s (cArr 0) i = some (cArr (i % n)) := by
  intro i
  induction i with
  | zero =>
    intro hi
    simp [verifyChain, Nat.zero_mod]
  | succ i ih =>
    intro hi
    have hi2 : i < n := by omega
    simp only [verifyChain, ih (by omega), hs i hi2, Option.bind_eq_bind,
      Option.some_bind]
    rw [Nat.mod_eq_of_lt hi2, hclose i hi2]
    rfl

/-- `Sign` on a well-formed ring succeeds: the random probe and the
closure response make every self-check pass, and the returned signature
is locally closed at every slot (stepping the chain from slot `i` with
response `sArr i` reproduces the challenge of slot `(i+1) % n`), with
`cArr 0` the published challenge. -/
theorem Sign_ok (rg : Ring S P) (m : List Nat) (x : S) (j : Nat) (tape : Nat → S)
    (hn : 2 ≤ rg.pubkeys.length) (hj : j < rg.pubkeys.length) (hx : x ≠ 0)
    (hpkj : rg.pubkeys.getD j 0 = x • rg.curve.basePoint)
    (hhp : rg.hp = rg.pubkeys.map rg.curve.hashToCurve) :
    ∃ cArr sArr : Nat → S,
      Sign m rg x j tape = .ok
        { ring := some rg
        , c := some (cArr 0)
        , s := (List.range rg.pubkeys.length).map (fun i => some (sArr i))
        , image := some (x • rg.curve.hashToCurve (x • rg.curve.basePoint)) }
      ∧ ∀ i, i < rg.pubkeys.length →
          cArr ((i + 1) % rg.pubkeys.length) =
            chainStep rg.curve m rg.pubkeys rg.hp
              (x • rg.curve.hashToCurve (x • rg.curve.basePoint)) i (cArr i)
              (sArr i) := by
  obtain ⟨cs, hcs⟩ : ∃ cs, cs = signLoop rg.curve m rg.pubkeys rg.hp
      (x • rg.curve.hashToCurve (x • rg.curve.basePoint)) j rg.pubkeys.length tape
      (Function.update (fun _ => 0) ((j + 1) % rg.pubkeys.length)
        (challenge rg.curve m (tape 0 • rg.curve.basePoint)
          (tape 0 • rg.curve.hashToCurve (x • rg.curve.basePoint))))
      (rg.pubkeys.length - 1) := ⟨_, rfl⟩
  have hcspec : ∀ k, k ≤ rg.pubkeys.length - 1 →
      cs.1 ((j + k + 1) % rg.pubkeys.length) =
      cSeq rg.curve m rg.pubkeys rg.hp
        (x • rg.curve.hashToCurve (x • rg.curve.basePoint)) j rg.pubkeys.length
        (tape 0) (rg.curve.hashToCurve (x • rg.curve.basePoint)) tape k := by
    intro k hk
    rw [hcs]
    exact signLoop_c_spec rg.curve m rg.pubkeys rg.hp _ j rg.pubkeys.length tape
      (tape 0) (rg.curve.hashToCurve (x • rg.curve.basePoint)) hn hj
      (rg.pubkeys.length - 1) (le_refl _) k hk
  have hsspec : ∀ k, 1 ≤ k → k ≤ rg.pubkeys.length - 1 →
      cs.2 ((j + k) % rg.pubkeys.length) = tape k := by
    intro k hk1 hk2
    rw [hcs]
    exact signLoop_s_spec rg.curve m rg.pubkeys rg.hp _ j rg.pubkeys.length tape _
      hn hj (rg.pubkeys.length - 1) (le_refl _) k hk1 hk2
  have halgL : ∀ a : S, a • (x • rg.curve.basePoint) +
      (tape 0 - a * x) • rg.curve.basePoint = tape 0 • rg.curve.basePoint := by
    intro a
    rw [smul_smul, ← add_smul, add_comm, sub_add_cancel]
  have halgR : ∀ a : S, a • (x • rg.curve.hashToCurve (x • rg.curve.basePoint)) +
      (tape 0 - a * x) • rg.curve.hashToCurve (x • rg.curve.basePoint) =
      tape 0 • rg.curve.hashToCurve (x • rg.curve.basePoint) := by
    intro a
    rw [smul_smul, ← add_smul, add_comm, sub_add_cancel]
  have hhpj : rg.hp.getD j 0 = rg.curve.hashToCurve (x • rg.curve.basePoint) := by
    rw [hhp, getD_map_of_lt rg.curve.hashToCurve rg.pubkeys 0 _ hj, hpkj]
  refine ⟨cs.1, Function.update cs.2 j (tape 0 - cs.1 j * x), ?_, ?_⟩
  · have g1 : ¬ (rg.pubkeys.length < 2) := by omega
    have g2 : ¬ (rg.pubkeys.length ≤ j) := by omega
    have g4 : ¬ (rg.pubkeys.getD j 0 ≠ x • rg.curve.basePoint) := not_not_intro hpkj
    have hch : challenge rg.curve m (tape 0 • rg.curve.basePoint)
        (tape 0 • rg.curve.hashToCurve (x • rg.curve.basePoint)) =
        cs.1 ((j + 1) % rg.pubkeys.length) := (hcspec 0 (by omega)).symm
    simp only [Sign, g1, g2, hx, g4, if_false, ite_false]
    rw [← hcs]
    rw [if_neg (not_not_intro (halgL (cs.1 j))),
      if_neg (not_not_intro (halgR (cs.1 j))),
      if_neg (not_not_intro hch)]
  · intro i hi
    rcases eq_or_ne i j with rfl | hne
    · have hpos : (i + (rg.pubkeys.length - 1) + 1) % rg.pubkeys.length = i := by
        rw [show i + (rg.pubkeys.length - 1) + 1 = i + rg.pubkeys.length from by omega,
          Nat.add_mod_right, Nat.mod_eq_of_lt hi]
      have hcFj : cs.1 i = cSeq rg.curve m rg.pubkeys rg.hp
          (x • rg.curve.hashToCurve (x • rg.curve.basePoint)) i rg.pubkeys.length
          (tape 0) (rg.curve.hashToCurve (x • rg.curve.basePoint)) tape
          (rg.pubkeys.length - 1) := by
        have h0 := hcspec (rg.pubkeys.length - 1) (le_refl _)
        rwa [hpos] at h0
      have hL : cs.1 ((i + 1) % rg.pubkeys.length) = cSeq rg.curve m rg.pubkeys rg.hp
          (x • rg.curve.hashToCurve (x • rg.curve.basePoint)) i rg.pubkeys.length
          (tape 0) (rg.curve.hashToCurve (x • rg.curve.basePoint)) tape 0 :=
        hcspec 0 (by omega)
      rw [hL, Function.update_same, hcFj]
      simp only [chainStep, hpkj, hhpj, halgL, halgR]
      rfl
    · have hk : ∃ k, 1 ≤ k ∧ k ≤ rg.pubkeys.length - 1 ∧
          i = (j + k) % rg.pubkeys.length := by
        refine ⟨(i + rg.pubkeys.length - j) % rg.pubkeys.length, ?_, ?_, ?_⟩
        · by_contra h0
          have h0 : (i + rg.pubkeys.length - j) % rg.pubkeys.length = 0 := by omega
          obtain ⟨q, hq⟩ := Nat.dvd_of_mod_eq_zero h0
          have hq2 : q < 2 := by
            apply Nat.lt_of_mul_lt_mul_left (a := rg.pubkeys.length)
            omega
          interval_cases q <;> omega
        · have := Nat.mod_lt (i + rg.pubkeys.length - j) (show 0 < rg.pubkeys.length by omega)
          omega
        · rw [Nat.add_mod_mod,
            show j + (i + rg.pubkeys.length - j) = i + rg.pubkeys.length from by omega,
            Nat.add_mod_right, Nat.mod_eq_of_lt hi]
      obtain ⟨k, hk1, hkn, hik⟩ := hk
      obtain ⟨k2, rfl⟩ : ∃ k2, k = k2 + 1 := ⟨k - 1, by omega⟩
      subst hik
      rw [Nat.mod_add_mod, Function.update_noteq hne,
        show j + (k2 + 1) = j + k2 + 1 from rfl]
      have hs2 : cs.2 ((j + k2 + 1) % rg.pubkeys.length) = tape (k2 + 1) :=
        hsspec (k2 + 1) (by omega) (by omega)
      have hc2 : cs.1 ((j + k2 + 1 + 1) % rg.pubkeys.length) =
          cSeq rg.curve m rg.pubkeys rg.hp
            (x • rg.curve.hashToCurve (x • rg.curve.basePoint)) j
            rg.pubkeys.length (tape 0)
            (rg.curve.hashToCurve (x • rg.curve.basePoint)) tape (k2 + 1) :=
        hcspec (k2 + 1) (by omega)
      have hcFi : cs.1 ((j + k2 + 1) % rg.pubkeys.length) =
          cSeq rg.curve m rg.pubkeys rg.hp
            (x • rg.curve.hashToCurve (x • rg.curve.basePoint)) j
            rg.pubkeys.length (tape 0)
            (rg.curve.hashToCurve (x • rg.curve.basePoint)) tape k2 :=
        hcspec k2 (by omega)
      rw [hs2, hc2, hcFi]
      rfl

/-- `Verify` accepts a fully populated signature whose challenge chain is
locally closed at every slot. -/
theorem Verify_ok (rg : Ring S P) (m : List Nat) (cArr sArr : Nat → S) (image : P)
    (hn : 2 ≤ rg.pubkeys.length)
    (hhp : rg.hp.length = rg.pubkeys.length)
    (hclose : ∀ i, i < rg.pubkeys.length →
      cArr ((i + 1) % rg.pubkeys.length) =
        chainStep rg.curve m rg.pubkeys rg.hp image i (cArr i) (sArr i)) :
    Verify { ring := some rg, c := some (cArr 0)
           , s := ((List.range rg.pubkeys.length).map sArr).map some
           , image := some image } m = some true := by
  have hs : ∀ i, i < rg.pubkeys.length →
      (((List.range rg.pubkeys.length).map sArr).map some).getD i none =
        some (sArr i) := by
    intro i hi
    rw [List.map_map, getD_range_map _ _ hi]
    rfl
  have hvc := verifyChain_closed rg.curve m rg.pubkeys rg.hp image
    (((List.range rg.pubkeys.length).map sArr).map some) cArr sArr
    rg.pubkeys.length (by omega) hs hclose rg.pubkeys.length (le_refl _)
  have hguard : ¬ (rg.pubkeys.length < 2 ∨
      (((List.range rg.pubkeys.length).map sArr).map some).length ≠
        rg.pubkeys.length ∨
      (some (cArr 0)).isNone = true ∨ (some image).isNone = true) := by
    push_neg
    refine ⟨by omega, by simp, by simp, by simp⟩
  unfold Verify
  dsimp only
  rw [if_neg hguard, if_pos hhp]
  simp only [Option.bind_eq_bind, Option.some_bind, hvc, Nat.mod_self]
  simp

/-- C1: the full pipeline on any valid input: build a random-fill ring,
sign, serialize, deserialize, verify — the final verification accepts. -/
theorem c1_sign_serde_verify_roundtrip (C : Curve S P) (n idx : Nat) (x : S)
    (m : List Nat) (tapeK tapeS : Nat → S) (h2 : 2 ≤ n) (h128 : n ≤ 128)
    (hidx : idx < n) (hx : x ≠ 0) (hm : m.length = 32) :
    ∃ (rg : Ring S P) (sig : RingSig S P) (out : List Nat) (sig2 : RingSig S P),
      NewKeyRing C (n : Int) x (idx : Int) tapeK = .ok rg
      ∧ Sign m rg x idx tapeS = .ok sig
      ∧ Serialize sig = some out
      ∧ Deserialize C out = .ok sig2
      ∧ Verify sig2 m = some true := by
  obtain ⟨pk, hpkdef⟩ : ∃ pk, pk = (List.range n).map
      (fun i => if i = idx then x • C.basePoint else tapeK i • C.basePoint) :=
    ⟨_, rfl⟩
  obtain ⟨rg, hrgdef⟩ : ∃ rg : Ring S P,
      rg = { pubkeys := pk, curve := C, hp := pk.map C.hashToCurve } := ⟨_, rfl⟩
  have hcurve : rg.curve = C := by rw [hrgdef]
  have hlen : rg.pubkeys.length = n := by rw [hrgdef, hpkdef]; simp
  have hA : NewKeyRing C (n : Int) x (idx : Int) tapeK = .ok rg := by
    unfold NewKeyRing
    rw [if_neg (by omega), if_neg hx, if_neg (by omega), if_neg (by omega)]
    rw [hrgdef, hpkdef]
    norm_num [Int.toNat_natCast]
  have hpkj : rg.pubkeys.getD idx 0 = x • rg.curve.basePoint := by
    rw [hrgdef, hpkdef]
    show ((List.range n).map _).getD idx 0 = _
    rw [getD_range_map _ _ hidx, if_pos rfl]
  have hhp : rg.hp = rg.pubkeys.map rg.curve.hashToCurve := by
    rw [hrgdef]
  obtain ⟨cArr, sArr, hsig, hclose⟩ :=
    Sign_ok rg m x idx tapeS (by omega) (by omega) hx hpkj hhp
  have hrec : (List.range rg.pubkeys.length).map (fun i => some (sArr i)) =
      ((List.range rg.pubkeys.length).map sArr).map some := by
    rw [List.map_map]
    rfl
  rw [hrec] at hsig
  have hsl : ((List.range rg.pubkeys.length).map sArr).length =
      rg.pubkeys.length := by simp
  have hser := Serialize_wellformed rg (cArr 0)
    (x • rg.curve.hashToCurve (x • rg.curve.basePoint))
    ((List.range rg.pubkeys.length).map sArr) hsl
  have hdes := Deserialize_canonical rg.curve (cArr 0)
    (x • rg.curve.hashToCurve (x • rg.curve.basePoint))
    ((List.range rg.pubkeys.length).map sArr) rg.pubkeys []
    hsl (by omega) (by omega)
  rw [List.append_nil] at hdes
  have hring2 :
      ({ pubkeys := rg.pubkeys, curve := rg.curve,
         hp := rg.pubkeys.map rg.curve.hashToCurve } : Ring S P) = rg := by
    rw [← hhp]
  rw [hring2] at hdes
  have hver := Verify_ok rg m cArr sArr
    (x • rg.curve.hashToCurve (x • rg.curve.basePoint)) (by omega)
    (by rw [hhp]; simp) hclose
  rw [hcurve] at hsig hser hdes hver
  exact ⟨rg, _, _, _, hA, hsig, hser, hdes, hver⟩

/-- C1 witness: the round-trip theorem applied at the toy curve with a
2-key ring, signer index 0, secret 1, constant RNG tapes. -/
theorem c1_sign_serde_verify_roundtrip_witness :
    ∃ (rg : Ring (ZMod 5) (ZMod 5)) (sig : RingSig (ZMod 5) (ZMod 5))
      (out : List Nat) (sig2 : RingSig (ZMod 5) (ZMod 5)),
      NewKeyRing toyCurve ((2 : Nat) : Int) (1 : ZMod 5) ((0 : Nat) : Int)
        (fun _ => 1) = .ok rg
      ∧ Sign toyMsg rg 1 0 (fun _ => 1) = .ok sig
      ∧ Serialize sig = some out
      ∧ Deserialize toyCurve out = .ok sig2
      ∧ Verify sig2 toyMsg = some true :=
  c1_sign_serde_verify_roundtrip toyCurve 2 0 1 toyMsg (fun _ => 1) (fun _ => 1)
    (by decide) (by decide) (by decide) (by decide) (by decide)

end RingGo
